import Mathlib

/-!
Verification of `phase2_replacements.py`, a one-shot source-patching script.

The script reads `src/lib/supabasePipeline.ts`, applies two `re.sub` calls to
the in-memory content (both regex patterns are fully escaped, so each one
matches a fixed literal string and substitutes a fixed literal replacement),
writes the result back, and prints a confirmation message.

The embedding below models documents as `List Char`.  `subLit pat rep s` is
the `re.sub` of Python specialised to a literal (fully escaped) pattern: it scans
`s` left to right and replaces every non-overlapping occurrence of `pat` by
`rep`, resuming the scan after the replaced occurrence.  `countLit` counts the
replacements made by the same scan (as `re.subn` would report).
-/

namespace Phase2

/-- The single-quote character (code 39) appearing in the rule texts. -/
def sq : Char := Char.ofNat 39

/-- Matcher of rule 1.  The source pattern
`if \(!this\.isInitialized \|\| !this\.supabaseUrl \|\| !this\.supabaseAnonKey\)`
escapes every metacharacter, so it matches exactly this literal text. -/
def guardPattern : List Char :=
  "if (!this.isInitialized || !this.supabaseUrl || !this.supabaseAnonKey)".data

/-- Replacement of rule 1 (a literal, no backreferences). -/
def guardReplacement : List Char :=
  "if (!this.isInitialized)".data

/-- Matcher of rule 2.  The source pattern
`if \(!this\.supabaseUrl\) throw new Error\(\q(...)\q\);` (writing \q for the escaped quote)
is fully escaped, so it matches exactly the literal line
`if (!this.supabaseUrl) throw new Error(<q>Supabase URL not set<q>);`,
writing <q> for the single-quote character. -/
def urlPattern : List Char :=
  "if (!this.supabaseUrl) throw new Error(".data
    ++ [sq] ++ "Supabase URL not set".data ++ [sq] ++ ");".data

/-- Replacement of rule 2: the literal block
`// PHASE 2: Get env vars directly instead of caching` +
`\n    const supabaseUrl = import.meta.env.VITE_SUPABASE_URL || <q><q>;` +
`\n    const supabaseAnonKey = import.meta.env.VITE_SUPABASE_ANON_KEY || <q><q>;` +
`\n    if (!supabaseUrl) throw new Error(<q>Supabase URL not set<q>);`,
writing <q> for the single-quote character. -/
def urlReplacement : List Char :=
  "// PHASE 2: Get env vars directly instead of caching\n    const supabaseUrl = import.meta.env.VITE_SUPABASE_URL || ".data
    ++ [sq, sq]
    ++ ";\n    const supabaseAnonKey = import.meta.env.VITE_SUPABASE_ANON_KEY || ".data
    ++ [sq, sq]
    ++ ";\n    if (!supabaseUrl) throw new Error(".data
    ++ [sq] ++ "Supabase URL not set".data ++ [sq] ++ ");".data

/-- Worker for `subLit`.  The first `Nat` argument is the number of characters
still to be consumed silently because they belong to an occurrence that was
just replaced (the Python scan resumes after the end of the match). -/
def subLitGo (pat rep : List Char) : Nat → List Char → List Char
  | _, [] => []
  | Nat.succ n, _ :: rest => subLitGo pat rep n rest
  | 0, c :: rest =>
    if !pat.isEmpty && pat.isPrefixOf (c :: rest) then
      rep ++ subLitGo pat rep (pat.length - 1) rest
    else
      c :: subLitGo pat rep 0 rest

/-- `re.sub` for a literal (fully escaped) pattern: replace every
non-overlapping occurrence of `pat` in `s` by `rep`, scanning left to right. -/
def subLit (pat rep s : List Char) : List Char :=
  subLitGo pat rep 0 s

/-- Worker for `countLit`; same scan as `subLitGo`. -/
def countGo (pat : List Char) : Nat → List Char → Nat
  | _, [] => 0
  | Nat.succ n, _ :: rest => countGo pat n rest
  | 0, c :: rest =>
    if !pat.isEmpty && pat.isPrefixOf (c :: rest) then
      countGo pat (pat.length - 1) rest + 1
    else
      countGo pat 0 rest

/-- Number of replacements the scan of `subLit pat · s` performs (the count
`re.subn` would report). -/
def countLit (pat s : List Char) : Nat :=
  countGo pat 0 s

/-- `joinWith sep [g0, g1, ..., gk] = g0 ++ sep ++ g1 ++ sep ++ ... ++ gk`.
Used to state what the scan does: the input splits into gap segments
separated by pattern occurrences, and the output is the same gaps separated
by the replacement. -/
def joinWith (sep : List Char) : List (List Char) → List Char
  | [] => []
  | [g] => g
  | g :: g2 :: gs => g ++ sep ++ joinWith sep (g2 :: gs)

/-- Rule 1 of the script (first `re.sub` call). -/
def rule1 (s : List Char) : List Char :=
  subLit guardPattern guardReplacement s

/-- Rule 2 of the script (second `re.sub` call). -/
def rule2 (s : List Char) : List Char :=
  subLit urlPattern urlReplacement s

/-- The full transformation the script applies to the file content:
`content = re.sub(rule1...); content = re.sub(rule2...)` threads the text
through rule 1 and then rule 2. -/
def pipeline (s : List Char) : List Char :=
  rule2 (rule1 s)

/-- Number of lines of a text (one more than the number of newlines). -/
def numLines (s : List Char) : Nat :=
  s.count (Char.ofNat 10) + 1

/-- Errors the script can raise: `IOError` from `open`/read, `re.PatternError`
from compiling a malformed pattern.  (Both actual patterns in the script are
valid; the flags below let us talk about the structure of the script when a
pattern is malformed, as the spec does.) -/
inductive ScriptError
  | ioError
  | patternError
deriving DecidableEq

/-- Observable outcome of one run: the content of the target file on disk after
the run, whether the confirmation message was printed, and the error raised
(if any). -/
structure RunOutcome where
  disk : List Char
  printedSuccess : Bool
  error : Option ScriptError
deriving DecidableEq

/-- The script as a state transformer, following its straight-line statement
order: open/read the target (raises `IOError` when the path is unreadable);
first `re.sub` (compiling the rule-1 pattern raises `PatternError` when it is
malformed, modelled by `ok1 = false`); second `re.sub` (likewise `ok2`); only
then open the target for writing, truncate and write the transformed text
(with explicit encoding and `\n` line endings, which leave the text value
unchanged); finally print the confirmation.  The disk content changes only in
the final, write step. -/
def runScript (content : List Char) (readable ok1 ok2 : Bool) : RunOutcome :=
  if readable = false then ⟨content, false, some ScriptError.ioError⟩
  else if ok1 = false then ⟨content, false, some ScriptError.patternError⟩
  else if ok2 = false then ⟨content, false, some ScriptError.patternError⟩
  else ⟨pipeline content, true, none⟩

/-- Events of one run, in order. -/
inductive Event
  | readFile
  | ruleApplied (i : Nat)
  | raisedIOError
  | raisedPatternError
  | wroteFile
  | printedSuccess
deriving DecidableEq

/-- Event trace of the script, following its statement order.  In Python, the call
`re.sub(pattern, repl, text)` compiles `pattern` when the call executes, so a
malformed pattern raises inside that call: after the file was read, and - for
the second rule - after the first rule was already applied to the in-memory
text. -/
def scriptTrace (readable ok1 ok2 : Bool) : List Event :=
  if readable = false then [Event.raisedIOError]
  else
    Event.readFile ::
      (if ok1 = false then [Event.raisedPatternError]
       else
         Event.ruleApplied 1 ::
           (if ok2 = false then [Event.raisedPatternError]
            else [Event.ruleApplied 2, Event.wroteFile, Event.printedSuccess]))

/-! ### Unfolding equations for the scanner -/

theorem subLitGo_skip (pat rep : List Char) :
    ∀ (s : List Char) (n : Nat), subLitGo pat rep n s = subLit pat rep (s.drop n) := by
  intro s
  induction s with
  | nil => intro n; cases n <;> rfl
  | cons c rest ih =>
    intro n
    cases n with
    | zero => rfl
    | succ m =>
      show subLitGo pat rep m rest = _
      rw [ih m, List.drop_succ_cons]

theorem subLit_nil (pat rep : List Char) : subLit pat rep [] = [] := rfl

theorem subLit_cons_neg (pat rep : List Char) (c : Char) (rest : List Char)
    (h : pat.isPrefixOf (c :: rest) = false) :
    subLit pat rep (c :: rest) = c :: subLit pat rep rest := by
  show subLitGo pat rep 0 (c :: rest) = _
  unfold subLitGo
  rw [h, Bool.and_false, if_neg (by simp)]
  rfl

theorem subLit_cons_pos (pat rep : List Char) (c : Char) (rest : List Char)
    (hp : pat ≠ []) (h : pat.isPrefixOf (c :: rest) = true) :
    subLit pat rep (c :: rest) = rep ++ subLit pat rep ((c :: rest).drop pat.length) := by
  obtain ⟨p, ps, rfl⟩ : ∃ p ps, pat = p :: ps := by
    cases pat with
    | nil => exact absurd rfl hp
    | cons p ps => exact ⟨p, ps, rfl⟩
  show subLitGo (p :: ps) rep 0 (c :: rest) = _
  unfold subLitGo
  rw [h]
  simp only [List.isEmpty_cons, Bool.not_false, Bool.true_and, if_pos rfl]
  rw [subLitGo_skip]
  simp [List.length_cons]

theorem subLit_head (pat rep s : List Char) (hp : pat ≠ []) (h : pat <+: s) :
    subLit pat rep s = rep ++ subLit pat rep (s.drop pat.length) := by
  cases s with
  | nil =>
    exact absurd (List.prefix_nil.mp h) hp
  | cons c rest =>
    exact subLit_cons_pos pat rep c rest hp ( List.isPrefixOf_iff_prefix.mpr h)

theorem subLit_append_head (pat rep t : List Char) (hp : pat ≠ []) :
    subLit pat rep (pat ++ t) = rep ++ subLit pat rep t := by
  rw [subLit_head pat rep _ hp (List.prefix_append pat t), List.drop_left]

/-- A rule whose matcher does not occur in the text is the identity on it. -/
theorem subLit_no_occ (pat rep s : List Char) (h : ¬ pat <:+: s) :
    subLit pat rep s = s := by
  induction s with
  | nil => rfl
  | cons c rest ih =>
    have hp : pat ≠ [] := by
      rintro rfl
      exact h List.nil_infix
    cases hm : pat.isPrefixOf (c :: rest) with
    | true =>
      exact absurd (( List.isPrefixOf_iff_prefix.mp hm).isInfix) h
    | false =>
      rw [subLit_cons_neg pat rep c rest hm,
        ih (fun hi => h (List.infix_cons hi))]

theorem countGo_skip (pat : List Char) :
    ∀ (s : List Char) (n : Nat), countGo pat n s = countLit pat (s.drop n) := by
  intro s
  induction s with
  | nil => intro n; cases n <;> rfl
  | cons c rest ih =>
    intro n
    cases n with
    | zero => rfl
    | succ m =>
      show countGo pat m rest = _
      rw [ih m, List.drop_succ_cons]

theorem countLit_nil (pat : List Char) : countLit pat [] = 0 := rfl

theorem countLit_cons_neg (pat : List Char) (c : Char) (rest : List Char)
    (h : pat.isPrefixOf (c :: rest) = false) :
    countLit pat (c :: rest) = countLit pat rest := by
  show countGo pat 0 (c :: rest) = _
  unfold countGo
  rw [h, Bool.and_false, if_neg (by simp)]
  rfl

theorem countLit_cons_pos (pat : List Char) (c : Char) (rest : List Char)
    (hp : pat ≠ []) (h : pat.isPrefixOf (c :: rest) = true) :
    countLit pat (c :: rest) = countLit pat ((c :: rest).drop pat.length) + 1 := by
  obtain ⟨p, ps, rfl⟩ : ∃ p ps, pat = p :: ps := by
    cases pat with
    | nil => exact absurd rfl hp
    | cons p ps => exact ⟨p, ps, rfl⟩
  show countGo (p :: ps) 0 (c :: rest) = _
  unfold countGo
  rw [h]
  simp only [List.isEmpty_cons, Bool.not_false, Bool.true_and, if_pos rfl]
  rw [countGo_skip]
  simp [List.length_cons]

/-! ### `joinWith` equations -/

theorem joinWith_nil (sep : List Char) : joinWith sep [] = [] := rfl

theorem joinWith_single (sep g : List Char) : joinWith sep [g] = g := rfl

theorem joinWith_cons (sep g : List Char) (gs : List (List Char)) (h : gs ≠ []) :
    joinWith sep (g :: gs) = g ++ sep ++ joinWith sep gs := by
  cases gs with
  | nil => exact absurd rfl h
  | cons g2 gs2 => rfl

/-! ### Positional analysis of prefixes and infixes of a concatenation -/

theorem prefix_split {p a b : List Char} (h : p <+: a ++ b) :
    p <+: a ∨ (a <+: p ∧ p.drop a.length <+: b) := by
  obtain ⟨t, ht⟩ := h
  rcases List.append_eq_append_iff.mp ht with ⟨a2, ha, _⟩ | ⟨c2, hpeq, hbeq⟩
  · exact Or.inl ⟨a2, ha.symm⟩
  · refine Or.inr ⟨⟨c2, hpeq.symm⟩, ?_⟩
    rw [hpeq, List.drop_left]
    exact ⟨t, hbeq.symm⟩

theorem infix_split {p : List Char} :
    ∀ {a b : List Char}, p <:+: a ++ b →
      p <:+: a ∨ p <:+: b ∨
        ∃ j, 0 < j ∧ j < p.length ∧ p.take j <:+ a ∧ p.drop j <+: b := by
  intro a
  induction a with
  | nil => exact fun h => Or.inr (Or.inl h)
  | cons x a2 ih =>
    intro b h
    rcases List.infix_cons_iff.mp h with hpre | hinf
    · rcases @prefix_split p (x :: a2) b hpre with h1 | ⟨h2, h3⟩
      · exact Or.inl h1.isInfix
      · rcases eq_or_lt_of_le h2.length_le with heq | hlt
        · exact Or.inl (by rw [← h2.eq_of_length heq])
        · refine Or.inr (Or.inr ⟨(x :: a2).length, by simp, hlt, ?_, h3⟩)
          rw [← List.prefix_iff_eq_take.mp h2]
    · rcases ih hinf with h1 | h2 | ⟨j, hj0, hjl, hsuf, hdrop⟩
      · exact Or.inl (List.infix_cons h1)
      · exact Or.inr (Or.inl h2)
      · exact Or.inr (Or.inr ⟨j, hj0, hjl, hsuf.trans (List.suffix_cons x a2), hdrop⟩)

theorem joinWith_cons_first (sep g : List Char) (c : Char) (gs : List (List Char)) :
    joinWith sep ((c :: g) :: gs) = c :: joinWith sep (g :: gs) := by
  cases gs with
  | nil => rfl
  | cons g2 gs2 =>
    rw [joinWith_cons sep (c :: g) (g2 :: gs2) (by simp),
      joinWith_cons sep g (g2 :: gs2) (by simp)]
    simp

/-! ### The scan replaces exactly the left-to-right non-overlapping
occurrences: the text splits into pattern-free gaps separated by
`countLit` occurrences of the pattern, and the output is the same gaps
separated by the replacement. -/

theorem subLit_decomp (p r : List Char) (hp : p ≠ []) :
    ∀ s : List Char, ∃ parts : List (List Char),
      parts ≠ [] ∧
      parts.length = countLit p s + 1 ∧
      s = joinWith p parts ∧
      subLit p r s = joinWith r parts ∧
      ∀ g ∈ parts, ¬ p <:+: g := by
  have key : ∀ (n : Nat) (s : List Char), s.length ≤ n →
      ∃ parts : List (List Char),
        parts ≠ [] ∧
        parts.length = countLit p s + 1 ∧
        s = joinWith p parts ∧
        subLit p r s = joinWith r parts ∧
        ∀ g ∈ parts, ¬ p <:+: g := by
    intro n
    induction n with
    | zero =>
      intro s hs
      have : s = [] := List.length_eq_zero.mp (Nat.le_zero.mp hs)
      subst this
      refine ⟨[[]], by simp, by simp [countLit_nil, joinWith_single], by simp [joinWith_single],
        by simp [joinWith_single, subLit_nil], ?_⟩
      intro g hg
      simp only [List.mem_singleton] at hg
      subst hg
      rw [List.infix_nil]
      exact hp
    | succ n ih =>
      intro s hs
      cases s with
      | nil =>
        refine ⟨[[]], by simp, by simp [countLit_nil, joinWith_single], by simp [joinWith_single],
          by simp [joinWith_single, subLit_nil], ?_⟩
        intro g hg
        simp only [List.mem_singleton] at hg
        subst hg
        rw [List.infix_nil]
        exact hp
      | cons c rest =>
        cases hm : p.isPrefixOf (c :: rest) with
        | false =>
          obtain ⟨parts', hne, hlen, hjoin, hsub, hfree⟩ :=
            ih rest (by simpa using Nat.le_of_succ_le_succ hs)
          obtain ⟨g, gs, rfl⟩ : ∃ g gs, parts' = g :: gs := by
            cases parts' with
            | nil => exact absurd rfl hne
            | cons g gs => exact ⟨g, gs, rfl⟩
          have hgrest : g <+: rest := by
            cases gs with
            | nil => simp [joinWith_single] at hjoin; exact hjoin ▸ List.prefix_refl g
            | cons g2 gs2 =>
              rw [joinWith_cons p g (g2 :: gs2) (by simp)] at hjoin
              exact hjoin ▸ ⟨p ++ joinWith p (g2 :: gs2), by simp⟩
          refine ⟨(c :: g) :: gs, by simp, ?_, ?_, ?_, ?_⟩
          · simpa [countLit_cons_neg p c rest hm] using hlen
          · rw [joinWith_cons_first, ← hjoin]
          · rw [subLit_cons_neg p r c rest hm, hsub, joinWith_cons_first]
          · intro g' hg'
            rcases List.mem_cons.mp hg' with rfl | hmem
            · intro hinfix
              rcases List.infix_cons_iff.mp hinfix with hpre | hinf
              · have hph : p <+: c :: rest :=
                  hpre.trans (List.cons_prefix_cons.mpr ⟨rfl, hgrest⟩)
                exact absurd ( List.isPrefixOf_iff_prefix.mpr hph) (by rw [hm]; simp)
              · exact hfree g (List.mem_cons_self g gs) hinf
            · exact hfree g' (List.mem_cons_of_mem g hmem)
        | true =>
          have hpre : p <+: c :: rest := List.isPrefixOf_iff_prefix.mp hm
          obtain ⟨t, ht⟩ := hpre
          have hdrop : (c :: rest).drop p.length = t := by
            rw [← ht, List.drop_left]
          have hplen : 0 < p.length := List.length_pos.mpr hp
          have htlen : t.length ≤ n := by
            have : p.length + t.length = rest.length + 1 := by
              have := congrArg List.length ht
              simpa [List.length_append] using this
            have hs' : rest.length + 1 ≤ n + 1 := by simpa using hs
            omega
          obtain ⟨parts', hne, hlen, hjoin, hsub, hfree⟩ := ih t htlen
          refine ⟨[] :: parts', by simp, ?_, ?_, ?_, ?_⟩
          · rw [countLit_cons_pos p c rest hp hm, hdrop]
            simpa using hlen
          · rw [joinWith_cons p [] parts' hne, List.nil_append, ← hjoin, ht]
          · rw [subLit_cons_pos p r c rest hp hm, hdrop, hsub,
              joinWith_cons r [] parts' hne, List.nil_append]
          · intro g' hg'
            rcases List.mem_cons.mp hg' with rfl | hmem
            · rw [List.infix_nil]
              exact hp
            · exact hfree g' hmem
  exact fun s => key s.length s le_rfl

/-! ### Freeness of the output

Under decidable side conditions relating a pattern `p` to a replacement text
`r` (no occurrence of `p` inside `r`, no proper tail of `p` starting `r`, no
occurrence of `r` properly inside `p`, no proper head of `p` ending `r`), a
text assembled from `p`-free gaps separated by copies of `r` is `p`-free. -/

theorem drop_prefix_through (p r : List Char)
    (D2 : ∀ k, k < p.length → 0 < k → ¬ (p.drop k <+: r))
    (D3 : ∀ k, k < p.length → 0 < k → ¬ (r <+: p.drop k))
    (X : List Char) (k : Nat) (hk0 : 0 < k) (hk : k < p.length) :
    ¬ (p.drop k <+: r ++ X) := by
  intro h
  rcases prefix_split h with h1 | ⟨h2, _⟩
  · exact D2 k hk hk0 h1
  · exact D3 k hk hk0 h2

theorem joinWith_free (p r : List Char) (hp : p ≠ [])
    (D1 : ¬ p <:+: r)
    (D2 : ∀ k, k < p.length → 0 < k → ¬ (p.drop k <+: r))
    (D3 : ∀ k, k < p.length → 0 < k → ¬ (r <+: p.drop k))
    (D4 : ∀ j, j < p.length → 0 < j → ¬ (p.take j <:+ r)) :
    ∀ parts : List (List Char),
      (∀ g ∈ parts, ¬ p <:+: g) → ¬ p <:+: joinWith r parts := by
  intro parts
  induction parts with
  | nil =>
    intro _
    rw [joinWith_nil, List.infix_nil]
    exact hp
  | cons g gs ihp =>
    intro hfree
    cases gs with
    | nil =>
      rw [joinWith_single]
      exact hfree g (List.mem_cons_self g [])
    | cons g2 gs2 =>
      rw [joinWith_cons r g (g2 :: gs2) (by simp), List.append_assoc]
      intro h
      rcases infix_split h with h1 | h2 | ⟨j, hj0, hjl, hsufg, hdrop⟩
      · exact hfree g (List.mem_cons_self g (g2 :: gs2)) h1
      · rcases infix_split h2 with h3 | h4 | ⟨j, hj0, hjl, hsufr, _⟩
        · exact D1 h3
        · exact ihp (fun g' hg' => hfree g' (List.mem_cons_of_mem g hg')) h4
        · exact D4 j hjl hj0 hsufr
      · exact drop_prefix_through p r D2 D3 _ j hj0 hjl hdrop

theorem part_infix_join (sep : List Char) :
    ∀ (parts : List (List Char)) (g : List Char),
      g ∈ parts → g <:+: joinWith sep parts := by
  intro parts
  induction parts with
  | nil => simp
  | cons g1 gs ih =>
    intro g hg
    rcases List.mem_cons.mp hg with rfl | hmem
    · cases gs with
      | nil => rw [joinWith_single]
      | cons g2 gs2 =>
        rw [joinWith_cons sep g (g2 :: gs2) (by simp), List.append_assoc]
        exact (List.prefix_append g _).isInfix
    · have hne : gs ≠ [] := by
        rintro rfl
        simp at hmem
      rw [joinWith_cons sep g1 gs hne]
      exact (ih g hmem).trans (List.suffix_append (g1 ++ sep) (joinWith sep gs)).isInfix

/-- After replacing every occurrence of `p` by `r`, no occurrence of `p` is
left, provided `r` cannot recreate one (side conditions `D1`-`D4`). -/
theorem subLit_no_survivor (p r : List Char) (hp : p ≠ [])
    (D1 : ¬ p <:+: r)
    (D2 : ∀ k, k < p.length → 0 < k → ¬ (p.drop k <+: r))
    (D3 : ∀ k, k < p.length → 0 < k → ¬ (r <+: p.drop k))
    (D4 : ∀ j, j < p.length → 0 < j → ¬ (p.take j <:+ r))
    (s : List Char) : ¬ p <:+: subLit p r s := by
  obtain ⟨parts, _, _, _, hsub, hfree⟩ := subLit_decomp p r hp s
  rw [hsub]
  exact joinWith_free p r hp D1 D2 D3 D4 parts hfree

/-- Replacing occurrences of a different pattern `q` by `rq` cannot create an
occurrence of `p` when the text had none (side conditions on `p` vs `rq`). -/
theorem subLit_preserves_free (p q rq : List Char) (hp : p ≠ []) (hq : q ≠ [])
    (D1 : ¬ p <:+: rq)
    (D2 : ∀ k, k < p.length → 0 < k → ¬ (p.drop k <+: rq))
    (D3 : ∀ k, k < p.length → 0 < k → ¬ (rq <+: p.drop k))
    (D4 : ∀ j, j < p.length → 0 < j → ¬ (p.take j <:+ rq))
    (s : List Char) (hs : ¬ p <:+: s) :
    ¬ p <:+: subLit q rq s := by
  obtain ⟨parts, _, _, hjoin, hsub, _⟩ := subLit_decomp q rq hq s
  rw [hsub]
  apply joinWith_free p rq hp D1 D2 D3 D4 parts
  intro g hg hinf
  exact hs (hinf.trans (hjoin ▸ part_infix_join q parts g hg))

/-- Replacing occurrences of `q` by `rq` cannot create an occurrence of `p`
at the very start of the text when neither `p` nor `q` matched there. -/
theorem subLit_preserves_no_head (p q rq : List Char) (_hp : p ≠ []) (hq : q ≠ [])
    (D2 : ∀ k, k < p.length → 0 < k → ¬ (p.drop k <+: rq))
    (D3 : ∀ k, k < p.length → 0 < k → ¬ (rq <+: p.drop k))
    (s : List Char) (hs1 : ¬ p <+: s) (hs2 : ¬ q <+: s) :
    ¬ p <+: subLit q rq s := by
  obtain ⟨parts, hne, _, hjoin, hsub, _⟩ := subLit_decomp q rq hq s
  rw [hsub]
  obtain ⟨g, gs, rfl⟩ : ∃ g gs, parts = g :: gs := by
    cases parts with
    | nil => exact absurd rfl hne
    | cons g gs => exact ⟨g, gs, rfl⟩
  cases gs with
  | nil =>
    rw [joinWith_single]
    rw [joinWith_single] at hjoin
    exact hjoin ▸ hs1
  | cons g2 gs2 =>
    have hjoin' : s = g ++ (q ++ joinWith q (g2 :: gs2)) := by
      rw [hjoin, joinWith_cons q g (g2 :: gs2) (by simp), List.append_assoc]
    have hgs : g <+: s := hjoin' ▸ List.prefix_append g _
    rw [joinWith_cons rq g (g2 :: gs2) (by simp), List.append_assoc]
    intro h
    rcases prefix_split h with h1 | ⟨h2, h3⟩
    · exact hs1 (h1.trans hgs)
    · have hg0 : g ≠ [] := by
        rintro rfl
        exact hs2 (hjoin' ▸ List.prefix_append q _)
      rcases lt_or_ge g.length p.length with hlt | hge
      · exact drop_prefix_through p rq D2 D3 _ g.length (List.length_pos.mpr hg0) hlt h3
      · have : g = p := h2.eq_of_length (Nat.le_antisymm h2.length_le hge)
        exact hs1 (this ▸ hgs)

theorem isPrefixOf_eq_false_of_not {q s : List Char} (h : ¬ q <+: s) :
    q.isPrefixOf s = false := by
  cases hb : q.isPrefixOf s with
  | false => rfl
  | true => exact absurd ( List.isPrefixOf_iff_prefix.mp hb) h

/-- When no occurrence of `q` spans the boundary between `a` and `b`
(no nonempty proper head of `q` that is a suffix of `a` continues as a
prefix of `b`), the scan treats `a ++ b` independently on each side. -/
theorem subLit_append_split (q r : List Char) (hq : q ≠ []) (a b : List Char)
    (hcond : ∀ j, j < q.length → 0 < j → q.take j <:+ a → ¬ (q.drop j <+: b)) :
    subLit q r (a ++ b) = subLit q r a ++ subLit q r b := by
  have key : ∀ (n : Nat) (a : List Char), a.length ≤ n →
      (∀ j, j < q.length → 0 < j → q.take j <:+ a → ¬ (q.drop j <+: b)) →
      subLit q r (a ++ b) = subLit q r a ++ subLit q r b := by
    intro n
    induction n with
    | zero =>
      intro a ha _
      have : a = [] := List.length_eq_zero.mp (Nat.le_zero.mp ha)
      subst this
      rw [List.nil_append, subLit_nil, List.nil_append]
    | succ n ih =>
      intro a ha hc
      cases a with
      | nil => rw [List.nil_append, subLit_nil, List.nil_append]
      | cons c a2 =>
        cases hm : q.isPrefixOf (c :: a2) with
        | true =>
          have hpre : q <+: c :: a2 := List.isPrefixOf_iff_prefix.mp hm
          obtain ⟨a3, ha3⟩ := hpre
          have hlen3 : a3.length ≤ n := by
            have := congrArg List.length ha3
            simp only [List.length_append, List.length_cons] at this ha
            have hq1 : 0 < q.length := List.length_pos.mpr hq
            omega
          have hsufa3 : a3 <:+ c :: a2 := ⟨q, ha3⟩
          have hstep : subLit q r ((c :: a2) ++ b) = r ++ subLit q r (a3 ++ b) := by
            rw [← ha3, List.append_assoc, subLit_append_head q r _ hq]
          rw [hstep, ih a3 hlen3
              (fun j hj hj0 hsuf => hc j hj hj0 (hsuf.trans hsufa3)),
            ← ha3, subLit_append_head q r _ hq, List.append_assoc]
        | false =>
          have hnot : ¬ q <+: c :: a2 := fun hpre =>
            absurd ( List.isPrefixOf_iff_prefix.mpr hpre) (by rw [hm]; simp)
          have hnotb : ¬ q <+: (c :: a2) ++ b := by
            intro hpre
            rcases prefix_split hpre with hx | ⟨hy, hz⟩
            · exact hnot hx
            · rcases eq_or_lt_of_le hy.length_le with heq | hlt
              · exact hnot (by rw [hy.eq_of_length heq])
              · refine hc (c :: a2).length hlt (by simp) ?_ hz
                rw [← List.prefix_iff_eq_take.mp hy]
          have hm2 : q.isPrefixOf (c :: (a2 ++ b)) = false :=
            isPrefixOf_eq_false_of_not (by simpa using hnotb)
          rw [List.cons_append, subLit_cons_neg q r c (a2 ++ b) hm2,
            subLit_cons_neg q r c a2 hm,
            ih a2 (by simpa using Nat.le_of_succ_le_succ ha)
              (fun j hj hj0 hsuf => hc j hj hj0 (hsuf.trans (List.suffix_cons c a2))),
            List.cons_append]
  exact key a.length a le_rfl hcond

/-! ### Decidable facts about the two concrete rules -/

set_option maxRecDepth 1000000

theorem gp_ne : guardPattern ≠ [] := by decide

theorem up_ne : urlPattern ≠ [] := by decide

theorem no_p1_in_r1 : ¬ guardPattern <:+: guardReplacement := by decide

theorem no_tail_p1_starts_r1 :
    ∀ k, k < guardPattern.length → 0 < k →
      ¬ (guardPattern.drop k <+: guardReplacement) := by decide

theorem no_r1_in_tail_p1 :
    ∀ k, k < guardPattern.length → 0 < k →
      ¬ (guardReplacement <+: guardPattern.drop k) := by decide

theorem no_head_p1_ends_r1 :
    ∀ j, j < guardPattern.length → 0 < j →
      ¬ (guardPattern.take j <:+ guardReplacement) := by decide

theorem no_p2_in_r2 : ¬ urlPattern <:+: urlReplacement := by decide

theorem no_tail_p2_starts_r2 :
    ∀ k, k < urlPattern.length → 0 < k →
      ¬ (urlPattern.drop k <+: urlReplacement) := by decide

theorem no_r2_in_tail_p2 :
    ∀ k, k < urlPattern.length → 0 < k →
      ¬ (urlReplacement <+: urlPattern.drop k) := by decide

theorem no_head_p2_ends_r2 :
    ∀ j, j < urlPattern.length → 0 < j →
      ¬ (urlPattern.take j <:+ urlReplacement) := by decide

theorem no_p1_in_r2 : ¬ guardPattern <:+: urlReplacement := by decide

theorem no_tail_p1_starts_r2 :
    ∀ k, k < guardPattern.length → 0 < k →
      ¬ (guardPattern.drop k <+: urlReplacement) := by decide

theorem no_r2_in_tail_p1 :
    ∀ k, k < guardPattern.length → 0 < k →
      ¬ (urlReplacement <+: guardPattern.drop k) := by decide

theorem no_head_p1_ends_r2 :
    ∀ j, j < guardPattern.length → 0 < j →
      ¬ (guardPattern.take j <:+ urlReplacement) := by decide

theorem no_tail_p2_starts_r1 :
    ∀ k, k < urlPattern.length → 0 < k →
      ¬ (urlPattern.drop k <+: guardReplacement) := by decide

theorem no_r1_in_tail_p2 :
    ∀ k, k < urlPattern.length → 0 < k →
      ¬ (guardReplacement <+: urlPattern.drop k) := by decide

theorem no_p2_in_p1 : ¬ urlPattern <:+: guardPattern := by decide

theorem no_p1_in_p2 : ¬ guardPattern <:+: urlPattern := by decide

theorem no_p2_in_r1 : ¬ urlPattern <:+: guardReplacement := by decide

theorem no_head_p2_ends_p1 :
    ∀ j, j < urlPattern.length → 0 < j →
      ¬ (urlPattern.take j <:+ guardPattern) := by decide

theorem no_head_p2_ends_r1 :
    ∀ j, j < urlPattern.length → 0 < j →
      ¬ (urlPattern.take j <:+ guardReplacement) := by decide

theorem no_head_p1_ends_p2 :
    ∀ j, j < guardPattern.length → 0 < j →
      ¬ (guardPattern.take j <:+ urlPattern) := by decide

/-! ### Idempotence and commutation of the two concrete rules -/

theorem no_p1_in_rule1 (T : List Char) :
    ¬ guardPattern <:+: subLit guardPattern guardReplacement T :=
  subLit_no_survivor guardPattern guardReplacement gp_ne
    no_p1_in_r1 no_tail_p1_starts_r1 no_r1_in_tail_p1 no_head_p1_ends_r1 T

theorem no_p2_in_rule2 (T : List Char) :
    ¬ urlPattern <:+: subLit urlPattern urlReplacement T :=
  subLit_no_survivor urlPattern urlReplacement up_ne
    no_p2_in_r2 no_tail_p2_starts_r2 no_r2_in_tail_p2 no_head_p2_ends_r2 T

theorem no_p1_in_pipeline (T : List Char) :
    ¬ guardPattern <:+: pipeline T :=
  subLit_preserves_free guardPattern urlPattern urlReplacement gp_ne up_ne
    no_p1_in_r2 no_tail_p1_starts_r2 no_r2_in_tail_p1 no_head_p1_ends_r2
    (subLit guardPattern guardReplacement T) (no_p1_in_rule1 T)

theorem pipeline_idem (T : List Char) : pipeline (pipeline T) = pipeline T := by
  show subLit urlPattern urlReplacement
      (subLit guardPattern guardReplacement (pipeline T)) = pipeline T
  rw [subLit_no_occ _ _ _ (no_p1_in_pipeline T)]
  exact subLit_no_occ _ _ _ (no_p2_in_rule2 (subLit guardPattern guardReplacement T))

theorem subLit_rules_comm (T : List Char) :
    subLit guardPattern guardReplacement (subLit urlPattern urlReplacement T)
      = subLit urlPattern urlReplacement (subLit guardPattern guardReplacement T) := by
  have key : ∀ (n : Nat) (T : List Char), T.length ≤ n →
      subLit guardPattern guardReplacement (subLit urlPattern urlReplacement T)
        = subLit urlPattern urlReplacement (subLit guardPattern guardReplacement T) := by
    intro n
    induction n with
    | zero =>
      intro T hT
      have : T = [] := List.length_eq_zero.mp (Nat.le_zero.mp hT)
      subst this
      rfl
    | succ n ih =>
      intro T hT
      by_cases h1 : guardPattern <+: T
      · obtain ⟨T2, rfl⟩ := h1
        rw [List.length_append] at hT
        have hgp : 0 < guardPattern.length := List.length_pos.mpr gp_ne
        have hT2 : T2.length ≤ n := by omega
        have e2 : subLit urlPattern urlReplacement (guardPattern ++ T2)
            = guardPattern ++ subLit urlPattern urlReplacement T2 := by
          rw [subLit_append_split urlPattern urlReplacement up_ne guardPattern T2
              (fun j hj hj0 hsuf => absurd hsuf (no_head_p2_ends_p1 j hj hj0)),
            subLit_no_occ _ _ _ no_p2_in_p1]
        rw [e2, subLit_append_head _ _ _ gp_ne, subLit_append_head _ _ _ gp_ne,
          subLit_append_split urlPattern urlReplacement up_ne guardReplacement _
            (fun j hj hj0 hsuf => absurd hsuf (no_head_p2_ends_r1 j hj hj0)),
          subLit_no_occ _ _ _ no_p2_in_r1, ih T2 hT2]
      · by_cases h2 : urlPattern <+: T
        · obtain ⟨T2, rfl⟩ := h2
          rw [List.length_append] at hT
          have hup : 0 < urlPattern.length := List.length_pos.mpr up_ne
          have hT2 : T2.length ≤ n := by omega
          have e1 : subLit guardPattern guardReplacement (urlPattern ++ T2)
              = urlPattern ++ subLit guardPattern guardReplacement T2 := by
            rw [subLit_append_split guardPattern guardReplacement gp_ne urlPattern T2
                (fun j hj hj0 hsuf => absurd hsuf (no_head_p1_ends_p2 j hj hj0)),
              subLit_no_occ _ _ _ no_p1_in_p2]
          rw [e1, subLit_append_head _ _ _ up_ne, subLit_append_head _ _ _ up_ne,
            subLit_append_split guardPattern guardReplacement gp_ne urlReplacement _
              (fun j hj hj0 hsuf => absurd hsuf (no_head_p1_ends_r2 j hj hj0)),
            subLit_no_occ _ _ _ no_p1_in_r2, ih T2 hT2]
        · cases T with
          | nil => rfl
          | cons c rest =>
            have hrest : rest.length ≤ n := by
              simpa using Nat.le_of_succ_le_succ hT
            have hno1 : ¬ guardPattern <+: subLit urlPattern urlReplacement (c :: rest) :=
              subLit_preserves_no_head guardPattern urlPattern urlReplacement gp_ne up_ne
                no_tail_p1_starts_r2 no_r2_in_tail_p1 (c :: rest) h1 h2
            have hno2 : ¬ urlPattern <+: subLit guardPattern guardReplacement (c :: rest) :=
              subLit_preserves_no_head urlPattern guardPattern guardReplacement up_ne gp_ne
                no_tail_p2_starts_r1 no_r1_in_tail_p2 (c :: rest) h2 h1
            have e1 : subLit guardPattern guardReplacement (c :: rest)
                = c :: subLit guardPattern guardReplacement rest :=
              subLit_cons_neg _ _ _ _ (isPrefixOf_eq_false_of_not h1)
            have e2 : subLit urlPattern urlReplacement (c :: rest)
                = c :: subLit urlPattern urlReplacement rest :=
              subLit_cons_neg _ _ _ _ (isPrefixOf_eq_false_of_not h2)
            rw [e2] at hno1
            rw [e1] at hno2
            rw [e1, e2,
              subLit_cons_neg _ _ _ _ (isPrefixOf_eq_false_of_not hno1),
              subLit_cons_neg _ _ _ _ (isPrefixOf_eq_false_of_not hno2),
              ih rest hrest]
  exact key T.length T le_rfl

/-! ### The claims -/

/-- C1: the two rules are applied strictly in declaration order to a single
threaded text value: the program output is rule 2 applied to the output of
rule 1 (never to the original text), and on a readable file with both
patterns valid the script writes exactly that composition. -/
theorem claim1_rules_applied_in_order (T : List Char) :
    runScript T true true true
      = ⟨subLit urlPattern urlReplacement (subLit guardPattern guardReplacement T),
          true, none⟩
    ∧ pipeline T
      = subLit urlPattern urlReplacement (subLit guardPattern guardReplacement T) :=
  ⟨rfl, rfl⟩

/-- C2 counterexample: on the text consisting of exactly the matched line,
rule 2 produces the replacement block, which has four lines (a comment line,
two local declarations and the modified guard), not three. -/
theorem claim2_counterexample :
    subLit urlPattern urlReplacement urlPattern = urlReplacement ∧
    numLines urlPattern = 1 ∧
    numLines (subLit urlPattern urlReplacement urlPattern) = 4 ∧
    numLines (subLit urlPattern urlReplacement urlPattern) ≠ 3 :=
  ⟨by decide, by decide, by decide, by decide⟩

/-- C2 (amended): for every text containing the exact guard line, rule 2
replaces that single line by exactly FOUR lines (a comment plus a block
declaring two local values and re-emitting a modified guard), and all
surrounding text is preserved verbatim. -/
theorem claim2_amended_line_replaced_by_four_lines (a b : List Char)
    (ha : ¬ urlPattern <:+: a)
    (hspan : ∀ j, j < urlPattern.length → 0 < j → ¬ (urlPattern.take j <:+ a))
    (hb : ¬ urlPattern <:+: b) :
    subLit urlPattern urlReplacement (a ++ urlPattern ++ b)
        = a ++ urlReplacement ++ b
    ∧ numLines urlPattern = 1 ∧ numLines urlReplacement = 4 := by
  refine ⟨?_, by decide, by decide⟩
  rw [List.append_assoc,
    subLit_append_split urlPattern urlReplacement up_ne a (urlPattern ++ b)
      (fun j hj hj0 hsuf => absurd hsuf (hspan j hj hj0)),
    subLit_no_occ _ _ _ ha, subLit_append_head _ _ _ up_ne,
    subLit_no_occ _ _ _ hb, List.append_assoc]

/-- Witness for the amended C2, at `a = "x\n"`, `b = "\ny"`. -/
theorem claim2_amended_witness :
    (¬ urlPattern <:+: "x\n".data) ∧
    (∀ j, j < urlPattern.length → 0 < j → ¬ (urlPattern.take j <:+ "x\n".data)) ∧
    (¬ urlPattern <:+: "\ny".data) ∧
    (subLit urlPattern urlReplacement ("x\n".data ++ urlPattern ++ "\ny".data)
        = "x\n".data ++ urlReplacement ++ "\ny".data
      ∧ numLines urlPattern = 1 ∧ numLines urlReplacement = 4) :=
  ⟨by decide, by decide, by decide,
    claim2_amended_line_replaced_by_four_lines "x\n".data "\ny".data
      (by decide) (by decide) (by decide)⟩

/-- C3 counterexample: with the matcher of rule 2 malformed, the run does NOT
reject it before any text is processed: the file is read and rule 1 is
applied to the document before the `PatternError` is raised (patterns are
compiled inside each `re.sub` call, at apply time). -/
theorem claim3_counterexample :
    scriptTrace true true false
      = [Event.readFile, Event.ruleApplied 1, Event.raisedPatternError] ∧
    Event.ruleApplied 1 ∈ scriptTrace true true false :=
  ⟨rfl, by decide⟩

/-- C3 (amended): a malformed matcher is detected at apply time, inside its
own `re.sub` call, after the file has been read; the run raises
`PatternError` and never writes, but an earlier rule in the sequence has
already run on the document when the malformed rule is the later one (and
only a malformed FIRST rule is rejected before any rule application). -/
theorem claim3_amended_detection_at_apply_time (ok1 ok2 : Bool)
    (h : ok1 = false ∨ ok2 = false) :
    Event.raisedPatternError ∈ scriptTrace true ok1 ok2 ∧
    Event.wroteFile ∉ scriptTrace true ok1 ok2 ∧
    (ok1 = false → Event.ruleApplied 1 ∉ scriptTrace true ok1 ok2) ∧
    (ok1 = true → ok2 = false → Event.ruleApplied 1 ∈ scriptTrace true ok1 ok2) := by
  cases ok1 <;> cases ok2 <;> simp_all <;> decide

/-- Witness for the amended C3, at `ok1 = true`, `ok2 = false`. -/
theorem claim3_amended_witness :
    ((true : Bool) = false ∨ (false : Bool) = false) ∧
    (Event.raisedPatternError ∈ scriptTrace true true false ∧
     Event.wroteFile ∉ scriptTrace true true false ∧
     ((true : Bool) = false → Event.ruleApplied 1 ∉ scriptTrace true true false) ∧
     ((true : Bool) = true → (false : Bool) = false →
        Event.ruleApplied 1 ∈ scriptTrace true true false)) :=
  ⟨Or.inr rfl, claim3_amended_detection_at_apply_time true false (Or.inr rfl)⟩

/-- C4: on any fatal error (unreadable target, or a matcher failing to
compile in either rule) the content of the target file on disk is unchanged,
because the write step only runs after both rule applications completed
without raising. -/
theorem claim4_disk_unchanged_on_fatal_error (content : List Char)
    (readable ok1 ok2 : Bool)
    (h : (runScript content readable ok1 ok2).error ≠ none) :
    (runScript content readable ok1 ok2).disk = content ∧
    Event.wroteFile ∉ scriptTrace readable ok1 ok2 := by
  cases readable <;> cases ok1 <;> cases ok2 <;>
    simp_all [runScript, scriptTrace]

/-- Witness for C4, at an unreadable target. -/
theorem claim4_witness :
    ((runScript "abc".data false true true).error ≠ none) ∧
    ((runScript "abc".data false true true).disk = "abc".data ∧
      Event.wroteFile ∉ scriptTrace false true true) :=
  ⟨by decide, claim4_disk_unchanged_on_fatal_error "abc".data false true true (by decide)⟩

/-- C5: on the exact guard expression rule 1 produces exactly the shortened
guard, and in any document every occurrence of the guard is rewritten to the
shortened guard (the document splits into guard-free gaps; each occurrence
becomes the replacement). -/
theorem claim5_guard_rewritten :
    subLit guardPattern guardReplacement guardPattern = guardReplacement ∧
    ∀ s : List Char, ∃ parts : List (List Char),
      s = joinWith guardPattern parts ∧
      subLit guardPattern guardReplacement s = joinWith guardReplacement parts ∧
      ∀ g ∈ parts, ¬ guardPattern <:+: g := by
  refine ⟨by decide, ?_⟩
  intro s
  obtain ⟨parts, _, _, hjoin, hsub, hfree⟩ :=
    subLit_decomp guardPattern guardReplacement gp_ne s
  exact ⟨parts, hjoin, hsub, hfree⟩

/-- C6: each rule replaces ALL non-overlapping occurrences of its matcher,
scanning left to right: the input splits into `countLit p s` occurrences of
the pattern separated by occurrence-free gaps, and the output replaces each
of them, so the number of replacements equals the number of matches found. -/
theorem claim6_all_occurrences_replaced (p r s : List Char) (hp : p ≠ []) :
    ∃ parts : List (List Char),
      parts.length = countLit p s + 1 ∧
      s = joinWith p parts ∧
      subLit p r s = joinWith r parts ∧
      ∀ g ∈ parts, ¬ p <:+: g := by
  obtain ⟨parts, _, hlen, hjoin, hsub, hfree⟩ := subLit_decomp p r hp s
  exact ⟨parts, hlen, hjoin, hsub, hfree⟩

/-- Witness for C6 on a text with two occurrences of the pattern. -/
theorem claim6_witness :
    ("ab".data ≠ []) ∧
    countLit "ab".data "abxab".data = 2 ∧
    (∃ parts : List (List Char),
      parts.length = countLit "ab".data "abxab".data + 1 ∧
      "abxab".data = joinWith "ab".data parts ∧
      subLit "ab".data "Y".data "abxab".data = joinWith "Y".data parts ∧
      ∀ g ∈ parts, ¬ "ab".data <:+: g) :=
  ⟨by decide, by decide,
    claim6_all_occurrences_replaced "ab".data "Y".data "abxab".data (by decide)⟩

/-- C7: a rule whose matcher has zero occurrences in the text is the
identity transformation on it. -/
theorem claim7_no_match_is_identity (p r T : List Char) (h : ¬ p <:+: T) :
    subLit p r T = T :=
  subLit_no_occ p r T h

/-- Witness for C7. -/
theorem claim7_witness :
    (¬ "xyz".data <:+: "hello world".data) ∧
    subLit "xyz".data "Q".data "hello world".data = "hello world".data :=
  ⟨by decide,
    claim7_no_match_is_identity "xyz".data "Q".data "hello world".data (by decide)⟩

/-- C8: whenever both rule applications complete without raising — for every
content, including content where one or both rules match zero occurrences —
the run writes the result, prints the confirmation and succeeds, and the
completion signal is identical to that of any other successful run (e.g. the
empty document, where both rules are no-ops). -/
theorem claim8_success_signal (content : List Char) :
    runScript content true true true = ⟨pipeline content, true, none⟩ ∧
    (runScript content true true true).printedSuccess
      = (runScript [] true true true).printedSuccess ∧
    (runScript content true true true).error = (runScript [] true true true).error ∧
    scriptTrace true true true
      = [Event.readFile, Event.ruleApplied 1, Event.ruleApplied 2,
          Event.wroteFile, Event.printedSuccess] :=
  ⟨rfl, rfl, rfl, rfl⟩

/-- C9: the full two-rule pipeline is idempotent: running the
transformation on its own output changes nothing. -/
theorem claim9_pipeline_idempotent (T : List Char) :
    pipeline (pipeline T) = pipeline T :=
  pipeline_idem T

/-- C10: for these two specific rules the order of application does not
matter: rule 1 then rule 2 equals rule 2 then rule 1 on every input. -/
theorem claim10_order_independent (T : List Char) :
    rule1 (rule2 T) = rule2 (rule1 T) :=
  subLit_rules_comm T

end Phase2
